import Mathlib

/-!
Shallow embedding of `src/main.cpp` (codearmadillo/cpp-event-system).

The program is a single-threaded publish/subscribe event bus:
* `EventType` is a bit-flag enum (`None = 0`, `KeyPressed = 1 << 0`,
  `KeyReleased = 1 << 1`); we model the values as natural numbers.
* `Event` carries one `EventType` (`m_type`), with `get_type` and `is_type`.
  We add a ghost field `eid` (an instrumentation label naming the event in
  dispatch traces); it does not influence any modelled operation.
* The handler registry is a hand-rolled singly linked list of
  `ListNode<IEventHandler>` starting at `m_head`.  Each `new`-allocated node
  is a distinct address; we model a node by a natural-number identity `id`
  (distinct for distinct nodes), the handler's signature `sig`
  (`get_signature`), and the handler's `handle` callback, which returns the
  stop_propagation flag.  A reachable list is modelled as `List Handler`
  in pointer order (`m_head` first); the null `m_head` is the empty list.
* `register_handler` walks to the tail and appends (or installs the new node
  as head when `m_head == nullptr`).
* `unregister_handler(node)` asserts `m_head != nullptr`, then searches for
  the parent with `tail = m_head; while (tail->next != node) tail = tail->next;`
  and splices `tail->next = node->next`.  When no reachable node has `next ==
  node` (the target is the head, or is not in the list), `tail` runs past the
  last node to `nullptr` and the next loop-condition read `tail->next`
  dereferences a null pointer.  `UnregResult` records the three outcomes:
  normal return with the new list, the assertion firing, or the null
  dereference.
* `push_to_queue` appends to the FIFO `std::queue<Event>`.
* `process_queue` returns immediately when `m_head == nullptr`; otherwise it
  pops each queued event in order and walks the list from `m_head`, invoking
  `handle` on every handler with `get_signature() & event.get_type()` nonzero,
  and breaking out of the walk for the current event when `handle` returns
  true.  `dispatch_event` is the inner walk, returning the node identities of
  the handlers invoked, in invocation order; `process_queue` returns the
  trace of (event label, node identity) invocation pairs together with the
  final queue contents.
-/

def EventType.NoneT : Nat := 0

def EventType.KeyPressed : Nat := 1

def EventType.KeyReleased : Nat := 2

/-- Model of `struct Event`: `m_type` is the constructor argument; `eid` is a
ghost trace label, not present in the C++ struct. -/
structure Event where
  eid : Nat
  m_type : Nat
deriving DecidableEq

def Event.get_type (e : Event) : Nat := e.m_type

def Event.is_type (e : Event) (t : Nat) : Bool := e.m_type == t

/-- Model of a registered handler: the identity of its `ListNode` (distinct
nodes have distinct `id`), its signature bitmask, and its `handle` callback
returning the stop_propagation flag. -/
structure Handler where
  id : Nat
  sig : Nat
  handle : Event → Bool

/-- Node identities of a registry, in list (pointer) order. -/
def ids (l : List Handler) : List Nat := l.map Handler.id

/-- The dispatch condition of the inner walk:
`handler->get_signature() & event.get_type()` is nonzero. -/
def matches_ev (e : Event) (h : Handler) : Bool := h.sig &&& e.get_type != 0

/-- `EventBus::register_handler`: if `m_head == nullptr` the node becomes the
head, otherwise the code walks to the tail and attaches the node there. -/
def register_handler (reg : List Handler) (h : Handler) : List Handler :=
  match reg with
  | [] => [h]
  | t :: rest => t :: register_handler rest h

/-- Outcome of `EventBus::unregister_handler`. -/
inductive UnregResult where
  | ok (reg : List Handler)
  | assertAbort
  | nullDeref

/-- The parent-search-and-splice loop of `unregister_handler`, started at a
node `tail` heading the given suffix:
`while (tail->next != node) tail = tail->next; tail->next = node->next;`.
`none` means `tail` reached `nullptr` and the loop condition dereferenced a
null pointer.  A node pointer (`target`) is never null, so a `nullptr` read of
`tail->next` never matches it. -/
def spliceOut (target : Nat) : List Handler → Option (List Handler)
  | [] => none
  | [_] => none
  | t :: n :: rest =>
    if n.id = target then some (t :: rest)
    else (spliceOut target (n :: rest)).map (fun r => t :: r)

/-- `EventBus::unregister_handler(node)`: assert `m_head != nullptr`, then run
the parent search from `m_head`.  Note the splice never updates `m_head`. -/
def unregister_handler (target : Nat) (reg : List Handler) : UnregResult :=
  match reg with
  | [] => UnregResult.assertAbort
  | _ :: _ =>
    match spliceOut target reg with
    | some r => UnregResult.ok r
    | none => UnregResult.nullDeref

/-- `EventBus::push_to_queue`: `m_queue.emplace(event)` appends at the tail of
the FIFO queue. -/
def push_to_queue (q : List Event) (e : Event) : List Event := q ++ [e]

/-- The inner walk of `process_queue` for one event: starting at `m_head`,
invoke each handler whose signature intersects the event type; stop the walk
when a `handle` call returns true.  Returns the invoked node identities in
invocation order. -/
def dispatch_event (e : Event) : List Handler → List Nat
  | [] => []
  | h :: rest =>
    if matches_ev e h then
      if h.handle e then [h.id]
      else h.id :: dispatch_event e rest
    else dispatch_event e rest

/-- The `while (!m_queue.empty())` loop of `process_queue`: dispatch the front
event, pop it, repeat.  Returns the invocation trace (event label, node
identity) and the final queue (always empty). -/
def drain_loop (reg : List Handler) : List Event → List (Nat × Nat) × List Event
  | [] => ([], [])
  | e :: rest =>
    ((dispatch_event e reg).map (fun hid => (e.eid, hid)) ++ (drain_loop reg rest).1,
     (drain_loop reg rest).2)

/-- `EventBus::process_queue`: `if (m_head == nullptr) return;` — with no
registered handler the queue is left untouched — otherwise run the drain
loop. -/
def process_queue (reg : List Handler) (q : List Event) : List (Nat × Nat) × List Event :=
  match reg with
  | [] => ([], q)
  | _ :: _ => drain_loop reg q

/-- First-occurrence removal of the node with the given identity. -/
def eraseById (target : Nat) : List Handler → List Handler
  | [] => []
  | h :: rest => if h.id = target then rest else h :: eraseById target rest

/-- The suffix of the registry strictly after the node with identity `cid`:
the nodes a walk pointer standing on that node still has to visit. -/
def suffix_after (cid : Nat) : List Handler → List Handler
  | [] => []
  | h :: rest => if h.id = cid then rest else suffix_after cid rest

/-! Basic lemmas about the embedded operations. -/

theorem ids_nil : ids [] = [] := rfl

theorem ids_cons (a : Handler) (t : List Handler) : ids (a :: t) = a.id :: ids t := rfl

theorem ids_append (xs ys : List Handler) : ids (xs ++ ys) = ids xs ++ ids ys :=
  List.map_append Handler.id xs ys

theorem mem_ids_of_mem {h : Handler} {l : List Handler} (hmem : h ∈ l) : h.id ∈ ids l :=
  List.mem_map_of_mem Handler.id hmem

theorem register_handler_eq_append (reg : List Handler) (h : Handler) :
    register_handler reg h = reg ++ [h] := by
  induction reg with
  | nil => rfl
  | cons a t ih => simp [register_handler, ih]

theorem spliceOut_eq (target : Nat) (t : List Handler) (h : Handler) :
    spliceOut target (h :: t)
      = if target ∈ ids t then some (h :: eraseById target t) else none := by
  induction t generalizing h with
  | nil => simp [spliceOut, ids]
  | cons n rest ih =>
    by_cases hn : n.id = target
    · subst hn
      have hm : n.id ∈ ids (n :: rest) := List.mem_cons_self n.id (ids rest)
      rw [if_pos hm]
      simp [spliceOut, eraseById]
    · have hne : ¬ target = n.id := fun hc => hn hc.symm
      simp only [spliceOut, hn, if_false, ih n, ids_cons, List.mem_cons, hne, false_or,
        eraseById, if_neg hn]
      by_cases hm : target ∈ ids rest
      · simp [hm]
      · simp [hm]

theorem unregister_ok_eq {k : Nat} {reg reg' : List Handler}
    (hnd : (ids reg).Nodup)
    (hok : unregister_handler k reg = UnregResult.ok reg') :
    k ∈ ids reg ∧ reg' = eraseById k reg := by
  cases reg with
  | nil => cases hok
  | cons a t =>
    rw [unregister_handler, spliceOut_eq] at hok
    by_cases hk : k ∈ ids t
    · rw [if_pos hk] at hok
      have hreg' : reg' = a :: eraseById k t := by
        cases hok
        rfl
      have hna : a.id ∉ ids t := by
        rw [ids_cons] at hnd
        exact (List.nodup_cons.mp hnd).1
      have hak : ¬ a.id = k := fun hc => hna (hc ▸ hk)
      constructor
      · exact List.mem_cons_of_mem _ hk
      · rw [hreg', eraseById, if_neg hak]
    · rw [if_neg hk] at hok
      cases hok

theorem unregister_missing {k : Nat} {reg : List Handler} (hk : k ∉ ids reg) :
    (reg = [] → unregister_handler k reg = UnregResult.assertAbort)
    ∧ (reg ≠ [] → unregister_handler k reg = UnregResult.nullDeref) := by
  cases reg with
  | nil => exact ⟨fun _ => rfl, fun hne => absurd rfl hne⟩
  | cons a t =>
    refine ⟨fun hc => (List.cons_ne_nil a t hc).elim, fun _ => ?_⟩
    have hkt : k ∉ ids t := fun hc => hk (List.mem_cons_of_mem _ hc)
    rw [unregister_handler, spliceOut_eq, if_neg hkt]

theorem unregister_head_nullDeref {reg : List Handler} {a : Handler} {t : List Handler}
    (hreg : reg = a :: t) (hna : a.id ∉ ids t) :
    unregister_handler a.id reg = UnregResult.nullDeref := by
  subst hreg
  rw [unregister_handler, spliceOut_eq, if_neg hna]

theorem eraseById_append_of_mem {k : Nat} {xs : List Handler} (l : List Handler)
    (hk : k ∈ ids xs) :
    eraseById k (xs ++ l) = eraseById k xs ++ l := by
  induction xs with
  | nil => cases hk
  | cons a t ih =>
    by_cases ha : a.id = k
    · simp [eraseById, ha]
    · have hkt : k ∈ ids t := by
        rcases List.mem_cons.mp hk with hc | hc
        · exact absurd hc.symm ha
        · exact hc
      simp [eraseById, ha, ih hkt]

theorem eraseById_append_of_not_mem {k : Nat} {xs : List Handler} (l : List Handler)
    (hk : k ∉ ids xs) :
    eraseById k (xs ++ l) = xs ++ eraseById k l := by
  induction xs with
  | nil => rfl
  | cons a t ih =>
    have ha : ¬ a.id = k := fun hc => hk (hc ▸ List.mem_cons_self _ _)
    have hkt : k ∉ ids t := fun hc => hk (List.mem_cons_of_mem _ hc)
    simp [eraseById, ha, ih hkt]

theorem eraseById_sublist (k : Nat) (l : List Handler) : (eraseById k l).Sublist l := by
  induction l with
  | nil => exact List.Sublist.refl []
  | cons a t ih =>
    by_cases ha : a.id = k
    · rw [eraseById, if_pos ha]
      exact List.sublist_cons_self a t
    · rw [eraseById, if_neg ha]
      exact ih.cons₂ a

theorem suffix_after_eq (c : Handler) (xs ys : List Handler) (hx : c.id ∉ ids xs) :
    suffix_after c.id (xs ++ c :: ys) = ys := by
  induction xs with
  | nil => simp [suffix_after]
  | cons a t ih =>
    have ha : ¬ a.id = c.id := fun hc => hx (hc ▸ List.mem_cons_self _ _)
    have hxt : c.id ∉ ids t := fun hc => hx (List.mem_cons_of_mem _ hc)
    simpa [suffix_after, ha] using ih hxt

theorem matches_ev_iff (e : Event) (h : Handler) :
    matches_ev e h = true ↔ h.sig &&& e.get_type ≠ 0 := by
  simp [matches_ev]

theorem dispatch_event_nostop (e : Event) (l : List Handler)
    (hns : ∀ h ∈ l, h.handle e = false) :
    dispatch_event e l = (l.filter (matches_ev e)).map Handler.id := by
  induction l with
  | nil => rfl
  | cons a t ih =>
    have ha : a.handle e = false := hns a (List.mem_cons_self a t)
    have ht : ∀ h ∈ t, h.handle e = false := fun h hm => hns h (List.mem_cons_of_mem a hm)
    cases hma : matches_ev e a with
    | true => simp [dispatch_event, hma, ha, ih ht, List.filter_cons]
    | false => simp [dispatch_event, hma, ih ht, List.filter_cons]

theorem mem_dispatch_event {e : Event} {l : List Handler} {x : Nat}
    (hx : x ∈ dispatch_event e l) :
    ∃ h, h ∈ l ∧ h.id = x ∧ matches_ev e h = true := by
  induction l with
  | nil => cases hx
  | cons a t ih =>
    cases hma : matches_ev e a with
    | false =>
      simp only [dispatch_event, hma, Bool.false_eq_true, if_false] at hx
      rcases ih hx with ⟨h, hm, hid, hmt⟩
      exact ⟨h, List.mem_cons_of_mem a hm, hid, hmt⟩
    | true =>
      cases hh : a.handle e with
      | true =>
        simp only [dispatch_event, hma, hh, if_true, List.mem_singleton] at hx
        exact ⟨a, List.mem_cons_self a t, hx.symm, hma⟩
      | false =>
        simp only [dispatch_event, hma, hh, Bool.false_eq_true, if_true, if_false,
          List.mem_cons] at hx
        rcases hx with hx | hx
        · exact ⟨a, List.mem_cons_self a t, hx.symm, hma⟩
        · rcases ih hx with ⟨h, hm, hid, hmt⟩
          exact ⟨h, List.mem_cons_of_mem a hm, hid, hmt⟩

theorem count_ids_zero {x : Nat} {l : List Handler} (p : Handler → Bool)
    (hx : x ∉ ids l) :
    ((l.filter p).map Handler.id).count x = 0 := by
  rw [List.count_eq_zero]
  intro hmem
  rcases List.mem_map.mp hmem with ⟨h, hmf, hid⟩
  exact hx (hid ▸ mem_ids_of_mem (List.mem_of_mem_filter hmf))

theorem count_ids_filter {e : Event} {l : List Handler} {h : Handler}
    (hnd : (ids l).Nodup) (hmem : h ∈ l) :
    ((l.filter (matches_ev e)).map Handler.id).count h.id
      = if matches_ev e h then 1 else 0 := by
  induction l with
  | nil => cases hmem
  | cons a t ih =>
    rw [ids_cons, List.nodup_cons] at hnd
    rcases List.mem_cons.mp hmem with rfl | hmt
    · cases hma : matches_ev e h with
      | true =>
        simp only [List.filter_cons, hma, if_true, List.map_cons, List.count_cons_self]
        rw [count_ids_zero (matches_ev e) hnd.1]
      | false =>
        simp only [List.filter_cons, hma, Bool.false_eq_true, if_false]
        rw [count_ids_zero (matches_ev e) hnd.1]
    · have hne : h.id ≠ a.id := fun hc => hnd.1 (hc ▸ mem_ids_of_mem hmt)
      cases hma : matches_ev e a with
      | true =>
        simp only [List.filter_cons, hma, if_true, List.map_cons]
        rw [List.count_cons_of_ne hne, ih hnd.2 hmt]
      | false =>
        simp only [List.filter_cons, hma, Bool.false_eq_true, if_false]
        exact ih hnd.2 hmt

theorem drain_loop_snd (reg : List Handler) (q : List Event) :
    (drain_loop reg q).2 = [] := by
  induction q with
  | nil => rfl
  | cons e rest ih => simp [drain_loop, ih]

theorem drain_loop_fst (reg : List Handler) (q : List Event) :
    (drain_loop reg q).1
      = (q.map (fun ev => (dispatch_event ev reg).map (fun hid => (ev.eid, hid)))).flatten := by
  induction q with
  | nil => rfl
  | cons e rest ih => simp [drain_loop, ih]

theorem process_queue_nil_reg (q : List Event) : process_queue [] q = ([], q) := rfl

theorem process_queue_eq_drain {reg : List Handler} (hreg : reg ≠ []) (q : List Event) :
    process_queue reg q = drain_loop reg q := by
  cases reg with
  | nil => exact absurd rfl hreg
  | cons a t => rfl

/-! Claim theorems. -/

/-- C1: the claim states that `unregister` removes exactly the entry with the
given identity — including the identity of the first-registered, head entry —
leaving every other entry's mapping unchanged.  The code violates this for
the head: after registering two handlers (node identities 1 and 2, with 1 the
head), unregistering identity 1 makes the parent search
`while (tail->next != node)` run past the last node and dereference a null
pointer; the entry is never removed and `m_head` is never updated. -/
theorem C1_unregister_head_null_deref :
    register_handler (register_handler [] (⟨1, 1, fun _ => true⟩ : Handler))
        (⟨2, 1, fun _ => false⟩ : Handler)
      = [⟨1, 1, fun _ => true⟩, ⟨2, 1, fun _ => false⟩]
    ∧ unregister_handler 1 [⟨1, 1, fun _ => true⟩, ⟨2, 1, fun _ => false⟩]
      = UnregResult.nullDeref :=
  ⟨rfl, rfl⟩

/-- C2 counterexample: with zero registered handlers (`m_head == nullptr`)
and a non-empty queue, `process_queue` returns immediately and the queue is
left non-empty, so "after drain returns the pending-event queue is empty"
fails as stated. -/
theorem C2_counterexample :
    (process_queue [] [⟨0, 1⟩]).2 ≠ [] := by
  decide

/-- C2 (amended): if at least one handler is registered, `process_queue`
pops and dispatches every enqueued event in order and leaves the queue
empty; with zero registered handlers it returns immediately, leaving the
queue untouched; and draining an empty queue is a no-op. -/
theorem C2_drain_empties_queue (reg : List Handler) (q : List Event) :
    (reg ≠ [] →
      (process_queue reg q).2 = []
      ∧ (process_queue reg q).1
          = (q.map (fun ev => (dispatch_event ev reg).map (fun hid => (ev.eid, hid)))).flatten)
    ∧ process_queue reg [] = ([], [])
    ∧ process_queue [] q = ([], q) := by
  refine ⟨fun hreg => ?_, ?_, rfl⟩
  · rw [process_queue_eq_drain hreg]
    exact ⟨drain_loop_snd reg q, drain_loop_fst reg q⟩
  · cases reg with
    | nil => rfl
    | cons a t => rfl

/-- C2 witness: the amended statement evaluated on one registered handler
and a two-event queue. -/
theorem C2_drain_empties_queue_witness :
    (process_queue [⟨1, 1, fun _ => false⟩] [⟨0, 1⟩, ⟨5, 2⟩]).2 = []
    ∧ (process_queue [⟨1, 1, fun _ => false⟩] [⟨0, 1⟩, ⟨5, 2⟩]).1
        = ([⟨0, 1⟩, ⟨5, 2⟩].map (fun ev =>
            (dispatch_event ev [⟨1, 1, fun _ => false⟩]).map (fun hid => (ev.eid, hid)))).flatten
    ∧ process_queue [⟨1, 1, fun _ => false⟩] [] = ([], [])
    ∧ process_queue ([] : List Handler) [⟨0, 1⟩, ⟨5, 2⟩] = ([], [⟨0, 1⟩, ⟨5, 2⟩]) := by
  have h := C2_drain_empties_queue [⟨1, 1, fun _ => false⟩] [⟨0, 1⟩, ⟨5, 2⟩]
  have h1 := h.1 (List.cons_ne_nil _ _)
  exact ⟨h1.1, h1.2, h.2.1, h.2.2⟩

/-- C8 counterexample: unregistering an identity (99) not present in a
non-empty registry does not fire the assertion (`assert(m_head != nullptr)`
passes); instead the parent search runs off the list and dereferences a null
pointer. -/
theorem C8_counterexample :
    unregister_handler 99 [⟨1, 1, fun _ => true⟩] = UnregResult.nullDeref
    ∧ unregister_handler 99 [⟨1, 1, fun _ => true⟩] ≠ UnregResult.assertAbort := by
  have h1 : unregister_handler 99 [⟨1, 1, fun _ => true⟩] = UnregResult.nullDeref := rfl
  refine ⟨h1, fun hc => ?_⟩
  rw [h1] at hc
  exact UnregResult.noConfusion hc

/-- C8 (amended): unregistering an identity not present in the registry never
returns normally: with an empty registry the assertion
`assert(m_head != nullptr)` aborts, and with a non-empty registry the parent
search runs off the list and dereferences a null pointer (a crash, but not
the assertion-style abort the claim states). -/
theorem C8_missing_identity_crashes (k : Nat) (reg : List Handler) (hk : k ∉ ids reg) :
    (reg = [] → unregister_handler k reg = UnregResult.assertAbort)
    ∧ (reg ≠ [] → unregister_handler k reg = UnregResult.nullDeref)
    ∧ ∀ r, unregister_handler k reg ≠ UnregResult.ok r := by
  refine ⟨(unregister_missing hk).1, (unregister_missing hk).2, fun r hr => ?_⟩
  cases reg with
  | nil =>
    rw [(unregister_missing hk).1 rfl] at hr
    exact UnregResult.noConfusion hr
  | cons a t =>
    rw [(unregister_missing hk).2 (List.cons_ne_nil a t)] at hr
    exact UnregResult.noConfusion hr

/-- C8 witness: the amended statement evaluated at identity 99 against the
one-entry registry with node identity 1. -/
theorem C8_missing_identity_crashes_witness :
    ([⟨1, 1, fun _ => true⟩] = ([] : List Handler) →
      unregister_handler 99 [⟨1, 1, fun _ => true⟩] = UnregResult.assertAbort)
    ∧ ([⟨1, 1, fun _ => true⟩] ≠ ([] : List Handler) →
      unregister_handler 99 [⟨1, 1, fun _ => true⟩] = UnregResult.nullDeref)
    ∧ ∀ r, unregister_handler 99 [⟨1, 1, fun _ => true⟩] ≠ UnregResult.ok r :=
  C8_missing_identity_crashes 99 [⟨1, 1, fun _ => true⟩] (by decide)

/-- C9: `get_type` returns the `EventType` the event was constructed with,
and `is_type t` is exact equality with `t`, not a bitmask intersection
test; both are pure. -/
theorem C9_is_type_exact_equality (eid t u : Nat) :
    (Event.mk eid t).get_type = t
    ∧ ((Event.mk eid t).is_type u = true ↔ t = u) := by
  refine ⟨rfl, ?_⟩
  simp [Event.is_type]

/-- C5: `register_handler` appends at the tail of the registry, and the walk
visits entries front to back: the invocation trace for an event is a prefix
of the registry's matching node identities taken in registration order, and
equals that whole list when no handler stops propagation. -/
theorem C5_dispatch_in_registration_order (reg : List Handler) (h : Handler) (e : Event) :
    register_handler reg h = reg ++ [h]
    ∧ (∃ trailing, dispatch_event e reg ++ trailing
        = (reg.filter (matches_ev e)).map Handler.id)
    ∧ ((∀ h' ∈ reg, h'.handle e = false) →
        dispatch_event e reg = (reg.filter (matches_ev e)).map Handler.id) := by
  refine ⟨register_handler_eq_append reg h, ?_, dispatch_event_nostop e reg⟩
  induction reg with
  | nil => exact ⟨[], rfl⟩
  | cons a t ih =>
    cases hma : matches_ev e a with
    | false =>
      rcases ih with ⟨r, hr⟩
      refine ⟨r, ?_⟩
      simpa [dispatch_event, hma, List.filter_cons] using hr
    | true =>
      cases hh : a.handle e with
      | true =>
        refine ⟨(t.filter (matches_ev e)).map Handler.id, ?_⟩
        simp [dispatch_event, hma, hh, List.filter_cons]
      | false =>
        rcases ih with ⟨r, hr⟩
        refine ⟨r, ?_⟩
        simpa [dispatch_event, hma, hh, List.filter_cons] using hr

/-- C5 witness: the statement evaluated on a two-handler registry (the second
handler's signature does not match) and one event. -/
theorem C5_dispatch_in_registration_order_witness :
    register_handler [⟨1, 1, fun _ => false⟩, ⟨2, 2, fun _ => false⟩] ⟨3, 3, fun _ => false⟩
      = [⟨1, 1, fun _ => false⟩, ⟨2, 2, fun _ => false⟩] ++ [⟨3, 3, fun _ => false⟩]
    ∧ (∃ trailing,
        dispatch_event ⟨0, 1⟩ [⟨1, 1, fun _ => false⟩, ⟨2, 2, fun _ => false⟩] ++ trailing
          = ([⟨1, 1, fun _ => false⟩, ⟨2, 2, fun _ => false⟩].filter
              (matches_ev ⟨0, 1⟩)).map Handler.id)
    ∧ dispatch_event ⟨0, 1⟩ [⟨1, 1, fun _ => false⟩, ⟨2, 2, fun _ => false⟩]
        = ([⟨1, 1, fun _ => false⟩, ⟨2, 2, fun _ => false⟩].filter
            (matches_ev ⟨0, 1⟩)).map Handler.id := by
  have h := C5_dispatch_in_registration_order
      [⟨1, 1, fun _ => false⟩, ⟨2, 2, fun _ => false⟩] ⟨3, 3, fun _ => false⟩ ⟨0, 1⟩
  refine ⟨h.1, h.2.1, h.2.2 ?_⟩
  intro h' hm
  rcases List.mem_cons.mp hm with rfl | hm
  · rfl
  · rcases List.mem_cons.mp hm with rfl | hm
    · rfl
    · cases hm

/-- C6 counterexample: with a stopping handler registered first (node 1,
signature 1, stops propagation), the later handler (node 2) has a signature
intersecting the event's type but is never invoked, so "invoked if and only
if the bitwise AND is nonzero" fails as stated. -/
theorem C6_counterexample :
    ((⟨2, 1, fun _ => false⟩ : Handler).sig &&& (⟨0, 1⟩ : Event).get_type ≠ 0)
    ∧ (⟨2, 1, fun _ => false⟩ : Handler).id
        ∉ dispatch_event ⟨0, 1⟩ [⟨1, 1, fun _ => true⟩, ⟨2, 1, fun _ => false⟩] := by
  decide

/-- C6 (amended): a handler is invoked for an event only if the bitwise AND
of its signature and the event's type is nonzero (a non-matching handler is
silently skipped, which is not an error), and when no registered handler
stops propagation on the event, a handler is invoked exactly when that AND
is nonzero. -/
theorem C6_invoked_iff_signature_intersects (e : Event) (reg : List Handler) (h : Handler)
    (hnd : (ids reg).Nodup) (hmem : h ∈ reg) :
    (h.id ∈ dispatch_event e reg → h.sig &&& e.get_type ≠ 0)
    ∧ ((∀ h' ∈ reg, h'.handle e = false) →
        (h.id ∈ dispatch_event e reg ↔ h.sig &&& e.get_type ≠ 0)) := by
  have honly : h.id ∈ dispatch_event e reg → h.sig &&& e.get_type ≠ 0 := by
    intro hx
    rcases mem_dispatch_event hx with ⟨h', hm', hid', hmt'⟩
    have heq : h' = h := List.inj_on_of_nodup_map hnd hm' hmem hid'
    have hne : h'.sig &&& e.get_type ≠ 0 := (matches_ev_iff e h').mp hmt'
    rwa [heq] at hne
  refine ⟨honly, fun hns => ⟨honly, fun hsig => ?_⟩⟩
  rw [dispatch_event_nostop e reg hns]
  exact List.mem_map_of_mem Handler.id
    (List.mem_filter.mpr ⟨hmem, (matches_ev_iff e h).mpr hsig⟩)

/-- C6 witness: the amended statement evaluated for the first handler of a
two-handler registry with no stopping handler. -/
theorem C6_invoked_iff_signature_intersects_witness :
    ((⟨1, 1, fun _ => false⟩ : Handler).id
        ∈ dispatch_event ⟨0, 1⟩ [⟨1, 1, fun _ => false⟩, ⟨2, 2, fun _ => false⟩]
      → (⟨1, 1, fun _ => false⟩ : Handler).sig &&& (⟨0, 1⟩ : Event).get_type ≠ 0)
    ∧ ((⟨1, 1, fun _ => false⟩ : Handler).id
        ∈ dispatch_event ⟨0, 1⟩ [⟨1, 1, fun _ => false⟩, ⟨2, 2, fun _ => false⟩]
      ↔ (⟨1, 1, fun _ => false⟩ : Handler).sig &&& (⟨0, 1⟩ : Event).get_type ≠ 0) := by
  have h := C6_invoked_iff_signature_intersects ⟨0, 1⟩
      [⟨1, 1, fun _ => false⟩, ⟨2, 2, fun _ => false⟩] ⟨1, 1, fun _ => false⟩
      (by decide) (List.mem_cons_self _ _)
  refine ⟨h.1, h.2 ?_⟩
  intro h' hm
  rcases List.mem_cons.mp hm with rfl | hm
  · rfl
  · rcases List.mem_cons.mp hm with rfl | hm
    · rfl
    · cases hm

/-- C7: `push_to_queue` appends at the queue's tail, and a drain dispatches
queued events front to back: the trace is the concatenation, in enqueue
order, of one dispatch block per queued event, so an earlier-enqueued event
is dispatched to completion before a later one begins and no queued event's
block appears twice or out of order; enqueueing one more event appends
exactly one block at the end of the trace. -/
theorem C7_fifo_dispatch (reg : List Handler) (q : List Event) (e : Event)
    (hreg : reg ≠ []) :
    push_to_queue q e = q ++ [e]
    ∧ (process_queue reg q).1
        = (q.map (fun ev => (dispatch_event ev reg).map (fun hid => (ev.eid, hid)))).flatten
    ∧ (process_queue reg (push_to_queue q e)).1
        = (process_queue reg q).1 ++ (dispatch_event e reg).map (fun hid => (e.eid, hid)) := by
  refine ⟨rfl, ?_, ?_⟩
  · rw [process_queue_eq_drain hreg]
    exact drain_loop_fst reg q
  · rw [push_to_queue, process_queue_eq_drain hreg, process_queue_eq_drain hreg,
      drain_loop_fst, drain_loop_fst]
    simp

/-- C7 witness: the statement evaluated on a one-handler registry, a
two-event queue and one extra enqueued event. -/
theorem C7_fifo_dispatch_witness :
    push_to_queue [⟨0, 1⟩, ⟨5, 2⟩] ⟨9, 1⟩ = [⟨0, 1⟩, ⟨5, 2⟩] ++ [⟨9, 1⟩]
    ∧ (process_queue [⟨1, 3, fun _ => false⟩] [⟨0, 1⟩, ⟨5, 2⟩]).1
        = ([⟨0, 1⟩, ⟨5, 2⟩].map (fun ev =>
            (dispatch_event ev [⟨1, 3, fun _ => false⟩]).map (fun hid => (ev.eid, hid)))).flatten
    ∧ (process_queue [⟨1, 3, fun _ => false⟩] (push_to_queue [⟨0, 1⟩, ⟨5, 2⟩] ⟨9, 1⟩)).1
        = (process_queue [⟨1, 3, fun _ => false⟩] [⟨0, 1⟩, ⟨5, 2⟩]).1
          ++ (dispatch_event ⟨9, 1⟩ [⟨1, 3, fun _ => false⟩]).map (fun hid => ((9 : Nat), hid)) :=
  C7_fifo_dispatch [⟨1, 3, fun _ => false⟩] [⟨0, 1⟩, ⟨5, 2⟩] ⟨9, 1⟩ (List.cons_ne_nil _ _)

theorem dispatch_event_append_stop (e : Event) (xs ys : List Handler) (H : Handler)
    (hxs : ∀ h ∈ xs, h.handle e = false)
    (hm : H.sig &&& e.get_type ≠ 0) (hstop : H.handle e = true) :
    dispatch_event e (xs ++ H :: ys) = dispatch_event e xs ++ [H.id] := by
  induction xs with
  | nil =>
    simp [dispatch_event, (matches_ev_iff e H).mpr hm, hstop]
  | cons a t ih =>
    have ha : a.handle e = false := hxs a (List.mem_cons_self a t)
    have ht : ∀ h ∈ t, h.handle e = false := fun h hmem => hxs h (List.mem_cons_of_mem a hmem)
    cases hma : matches_ev e a with
    | true => simp [dispatch_event, hma, ha, ih ht]
    | false => simp [dispatch_event, hma, ih ht]

/-- C4: if the handlers registered before `H` do not stop propagation on
event `e`, `H`'s signature matches `e` and `H`'s `handle` returns true, then
the walk for `e` is the earlier invocations followed by `H` itself, no
handler registered after `H` is invoked for `e`, and the remaining queued
events are then dispatched against the unchanged registry, so every handler
(including those after `H`) stays eligible for subsequent events. -/
theorem C4_stop_propagation (e : Event) (q : List Event) (xs ys : List Handler) (H : Handler)
    (hxs : ∀ h ∈ xs, h.handle e = false)
    (hm : H.sig &&& e.get_type ≠ 0) (hstop : H.handle e = true)
    (hnd : (ids (xs ++ H :: ys)).Nodup) :
    dispatch_event e (xs ++ H :: ys) = dispatch_event e xs ++ [H.id]
    ∧ (∀ h ∈ ys, h.id ∉ dispatch_event e (xs ++ H :: ys))
    ∧ (process_queue (xs ++ H :: ys) (e :: q)).1
        = (dispatch_event e (xs ++ H :: ys)).map (fun hid => (e.eid, hid))
          ++ (process_queue (xs ++ H :: ys) q).1 := by
  have hmain := dispatch_event_append_stop e xs ys H hxs hm hstop
  have hne : xs ++ H :: ys ≠ [] := by simp
  rw [ids_append, ids_cons, List.nodup_append] at hnd
  refine ⟨hmain, fun h hy hmem => ?_, ?_⟩
  · rw [hmain] at hmem
    have hyid : h.id ∈ ids ys := mem_ids_of_mem hy
    rcases List.mem_append.mp hmem with hx | hx
    · rcases mem_dispatch_event hx with ⟨h', hm', hid', _⟩
      exact hnd.2.2 (mem_ids_of_mem hm') (hid' ▸ List.mem_cons_of_mem H.id hyid)
    · have hHy : H.id ∉ ids ys := (List.nodup_cons.mp hnd.2.1).1
      rw [List.mem_singleton] at hx
      exact hHy (hx ▸ hyid)
  · rw [process_queue_eq_drain hne, process_queue_eq_drain hne]
    rfl

/-- C4 witness: the statement evaluated with one earlier non-stopping
handler, a stopping handler `H`, one later handler, and one further queued
event. -/
theorem C4_stop_propagation_witness :
    dispatch_event ⟨0, 1⟩
        ([⟨1, 1, fun _ => false⟩] ++ (⟨2, 3, fun _ => true⟩ : Handler) :: [⟨3, 1, fun _ => false⟩])
      = dispatch_event ⟨0, 1⟩ [⟨1, 1, fun _ => false⟩] ++ [(⟨2, 3, fun _ => true⟩ : Handler).id]
    ∧ (∀ h ∈ [(⟨3, 1, fun _ => false⟩ : Handler)],
        h.id ∉ dispatch_event ⟨0, 1⟩
          ([⟨1, 1, fun _ => false⟩]
            ++ (⟨2, 3, fun _ => true⟩ : Handler) :: [⟨3, 1, fun _ => false⟩]))
    ∧ (process_queue
          ([⟨1, 1, fun _ => false⟩]
            ++ (⟨2, 3, fun _ => true⟩ : Handler) :: [⟨3, 1, fun _ => false⟩]) [⟨0, 1⟩, ⟨7, 1⟩]).1
        = (dispatch_event ⟨0, 1⟩
            ([⟨1, 1, fun _ => false⟩]
              ++ (⟨2, 3, fun _ => true⟩ : Handler) :: [⟨3, 1, fun _ => false⟩])).map
            (fun hid => ((0 : Nat), hid))
          ++ (process_queue
              ([⟨1, 1, fun _ => false⟩]
                ++ (⟨2, 3, fun _ => true⟩ : Handler) :: [⟨3, 1, fun _ => false⟩]) [⟨7, 1⟩]).1 := by
  refine C4_stop_propagation ⟨0, 1⟩ [⟨7, 1⟩] [⟨1, 1, fun _ => false⟩] [⟨3, 1, fun _ => false⟩]
      ⟨2, 3, fun _ => true⟩ ?_ (by decide) rfl (by decide)
  intro h hm
  rcases List.mem_cons.mp hm with rfl | hm
  · rfl
  · cases hm

/-- C10: an event whose type is `None` (the zero bit pattern) is delivered to
no handler of any registry regardless of signatures, and a handler whose
signature is zero is never invoked for any event, because dispatch requires
a nonzero bitwise AND of signature and event type. -/
theorem C10_zero_bitmask_never_invoked (eid : Nat) (e : Event) (reg : List Handler) :
    dispatch_event ⟨eid, EventType.NoneT⟩ reg = []
    ∧ ((ids reg).Nodup → ∀ h ∈ reg, h.sig = 0 → h.id ∉ dispatch_event e reg) := by
  constructor
  · induction reg with
    | nil => rfl
    | cons a t ih =>
      have hma : matches_ev ⟨eid, EventType.NoneT⟩ a = false := by
        simp [matches_ev, Event.get_type, EventType.NoneT, Nat.and_zero]
      simp [dispatch_event, hma, ih]
  · intro hnd h hmem hsig hx
    rcases mem_dispatch_event hx with ⟨h', hm', hid', hmt'⟩
    have heq : h' = h := List.inj_on_of_nodup_map hnd hm' hmem hid'
    have hne : h'.sig &&& e.get_type ≠ 0 := (matches_ev_iff e h').mp hmt'
    rw [heq, hsig, Nat.zero_and] at hne
    exact hne rfl

/-- C10 witness: the statement evaluated on a registry holding a
zero-signature handler (node 1) and a normal handler (node 2). -/
theorem C10_zero_bitmask_never_invoked_witness :
    dispatch_event ⟨4, EventType.NoneT⟩ [⟨1, 0, fun _ => false⟩, ⟨2, 3, fun _ => false⟩] = []
    ∧ (⟨1, 0, fun _ => false⟩ : Handler).id
        ∉ dispatch_event ⟨0, 3⟩ [⟨1, 0, fun _ => false⟩, ⟨2, 3, fun _ => false⟩] := by
  have h := C10_zero_bitmask_never_invoked 4 ⟨0, 3⟩
      [⟨1, 0, fun _ => false⟩, ⟨2, 3, fun _ => false⟩]
  exact ⟨h.1, h.2 (by decide) ⟨1, 0, fun _ => false⟩ (List.mem_cons_self _ _) rfl⟩

/-- C3: suppose event `e` is being dispatched and the walk currently stands
on handler `c` (so the matching handlers of the prefix `xs` have already
been invoked and `c`, which matches `e`, is being invoked; per `hns` no
handler stops propagation on `e`).  If `c`'s `handle` call unregisters the
interior node with identity `k` — not the head and not `c` itself, with
`hok` recording that the removal returned normally, which in the code is
exactly the non-head case — then the walk resumes from `c`'s successor
pointer, which after the splice enumerates `suffix_after c.id reg'`.  The
full invocation trace then contains every other still-registered handler
exactly once if its signature matches `e`, and zero times otherwise: no
still-registered handler is skipped or invoked twice. -/
theorem C3_interior_removal_no_skip_no_dup
    (e : Event) (xs ys reg' : List Handler) (c : Handler) (k : Nat)
    (hok : unregister_handler k (xs ++ c :: ys) = UnregResult.ok reg')
    (hkc : k ≠ c.id)
    (hnd : (ids (xs ++ c :: ys)).Nodup)
    (hns : ∀ h ∈ xs ++ c :: ys, h.handle e = false)
    (hcm : matches_ev e c = true) :
    ∀ h ∈ reg', h.id ≠ c.id →
      (dispatch_event e xs
          ++ c.id :: dispatch_event e (suffix_after c.id reg')).count h.id
        = if matches_ev e h then 1 else 0 := by
  have hx_ns : ∀ h ∈ xs, h.handle e = false :=
    fun h hm => hns h (List.mem_append.mpr (Or.inl hm))
  have hy_ns : ∀ h ∈ ys, h.handle e = false :=
    fun h hm => hns h (List.mem_append.mpr (Or.inr (List.mem_cons_of_mem c hm)))
  obtain ⟨hkmem, hreg'⟩ := unregister_ok_eq hnd hok
  rw [ids_append, ids_cons, List.nodup_append] at hnd
  have hndxs : (ids xs).Nodup := hnd.1
  have hcys : c.id ∉ ids ys := (List.nodup_cons.mp hnd.2.1).1
  have hndys : (ids ys).Nodup := (List.nodup_cons.mp hnd.2.1).2
  have hdisj : (ids xs).Disjoint (c.id :: ids ys) := hnd.2.2
  have hcxs : c.id ∉ ids xs := fun hc => hdisj hc (List.mem_cons_self _ _)
  have hxy : ∀ a, a ∈ ids xs → a ∉ ids ys :=
    fun a ha hb => hdisj ha (List.mem_cons_of_mem _ hb)
  have hdx : dispatch_event e xs = (xs.filter (matches_ev e)).map Handler.id :=
    dispatch_event_nostop e xs hx_ns
  rw [ids_append, ids_cons] at hkmem
  rcases List.mem_append.mp hkmem with hkx | hkcy
  · -- the removed node lies in the already-visited prefix
    have hreg'A : reg' = eraseById k xs ++ c :: ys := by
      rw [hreg']
      exact eraseById_append_of_mem (c :: ys) hkx
    have hsuf : suffix_after c.id reg' = ys := by
      rw [hreg'A]
      exact suffix_after_eq c (eraseById k xs) ys
        (fun hc => hcxs (((eraseById_sublist k xs).map Handler.id).subset hc))
    have hdy : dispatch_event e (suffix_after c.id reg')
        = (ys.filter (matches_ev e)).map Handler.id := by
      rw [hsuf]
      exact dispatch_event_nostop e ys hy_ns
    intro h hmem hhc
    rw [hreg'A] at hmem
    rcases List.mem_append.mp hmem with hhx | hhy
    · have hhxs : h ∈ xs := (eraseById_sublist k xs).subset hhx
      have hidny : h.id ∉ ids ys := hxy h.id (mem_ids_of_mem hhxs)
      rw [List.count_append, List.count_cons_of_ne hhc, hdx, hdy,
        count_ids_filter hndxs hhxs, count_ids_zero (matches_ev e) hidny, Nat.add_zero]
    · rcases List.mem_cons.mp hhy with rfl | hhys
      · exact absurd rfl hhc
      · have hidnx : h.id ∉ ids xs := fun hc => hxy h.id hc (mem_ids_of_mem hhys)
        rw [List.count_append, List.count_cons_of_ne hhc, hdx, hdy,
          count_ids_zero (matches_ev e) hidnx, count_ids_filter hndys hhys, Nat.zero_add]
  · rcases List.mem_cons.mp hkcy with hkeq | hky
    · exact absurd hkeq hkc
    · -- the removed node lies in the not-yet-visited suffix
      have hkxs : k ∉ ids xs := fun hc => hxy k hc hky
      have hck : ¬ c.id = k := fun hc => hkc hc.symm
      have hreg'B : reg' = xs ++ c :: eraseById k ys := by
        rw [hreg', eraseById_append_of_not_mem (c :: ys) hkxs]
        simp [eraseById, hck]
      have hndys' : (ids (eraseById k ys)).Nodup :=
        List.Nodup.sublist ((eraseById_sublist k ys).map Handler.id) hndys
      have hsufB : suffix_after c.id reg' = eraseById k ys := by
        rw [hreg'B]
        exact suffix_after_eq c xs (eraseById k ys) hcxs
      have her_ns : ∀ h ∈ eraseById k ys, h.handle e = false :=
        fun h hm => hy_ns h ((eraseById_sublist k ys).subset hm)
      have hdyB : dispatch_event e (suffix_after c.id reg')
          = ((eraseById k ys).filter (matches_ev e)).map Handler.id := by
        rw [hsufB]
        exact dispatch_event_nostop e (eraseById k ys) her_ns
      intro h hmem hhc
      rw [hreg'B] at hmem
      rcases List.mem_append.mp hmem with hhx | hhy
      · have hidny' : h.id ∉ ids (eraseById k ys) := fun hc =>
          hxy h.id (mem_ids_of_mem hhx) (((eraseById_sublist k ys).map Handler.id).subset hc)
        rw [List.count_append, List.count_cons_of_ne hhc, hdx, hdyB,
          count_ids_filter hndxs hhx, count_ids_zero (matches_ev e) hidny', Nat.add_zero]
      · rcases List.mem_cons.mp hhy with rfl | hhys
        · exact absurd rfl hhc
        · have hhysy : h ∈ ys := (eraseById_sublist k ys).subset hhys
          have hidnx : h.id ∉ ids xs := fun hc => hxy h.id hc (mem_ids_of_mem hhysy)
          rw [List.count_append, List.count_cons_of_ne hhc, hdx, hdyB,
            count_ids_zero (matches_ev e) hidnx, count_ids_filter hndys' hhys, Nat.zero_add]

/-- C3 witness: walk standing on node 2 of the registry with node identities
1, 2, 3, 4; node 3 (interior, not yet visited) is unregistered during node
2's `handle` call; the still-registered handler with node identity 4
(matching signature) is invoked exactly once. -/
theorem C3_interior_removal_no_skip_no_dup_witness :
    (dispatch_event ⟨0, 1⟩ [⟨1, 1, fun _ => false⟩]
        ++ (⟨2, 1, fun _ => false⟩ : Handler).id
          :: dispatch_event ⟨0, 1⟩
              (suffix_after (⟨2, 1, fun _ => false⟩ : Handler).id
                [⟨1, 1, fun _ => false⟩, ⟨2, 1, fun _ => false⟩,
                  ⟨4, 3, fun _ => false⟩])).count
        (⟨4, 3, fun _ => false⟩ : Handler).id
      = if matches_ev ⟨0, 1⟩ (⟨4, 3, fun _ => false⟩ : Handler) then 1 else 0 := by
  refine C3_interior_removal_no_skip_no_dup ⟨0, 1⟩ [⟨1, 1, fun _ => false⟩]
      [⟨3, 1, fun _ => false⟩, ⟨4, 3, fun _ => false⟩]
      [⟨1, 1, fun _ => false⟩, ⟨2, 1, fun _ => false⟩, ⟨4, 3, fun _ => false⟩]
      ⟨2, 1, fun _ => false⟩ 3 rfl (by decide) (by decide) ?_ rfl
      ⟨4, 3, fun _ => false⟩
      (List.mem_cons_of_mem _ (List.mem_cons_of_mem _ (List.mem_cons_self _ _))) (by decide)
  intro h hm
  rcases List.mem_append.mp hm with hm | hm
  · rcases List.mem_cons.mp hm with rfl | hm
    · rfl
    · cases hm
  · rcases List.mem_cons.mp hm with rfl | hm
    · rfl
    · rcases List.mem_cons.mp hm with rfl | hm
      · rfl
      · rcases List.mem_cons.mp hm with rfl | hm
        · rfl
        · cases hm
